import Mathlib

/-!
# libane: tiling transform, channel copies, submission and context set-up

Shallow embedding of `libane/src/ane_tile.c` and `libane/src/ane.c`.

Memory is byte addressed.  A buffer is a map from the byte offset (counted from the
buffer's base pointer) to the byte stored there; distinct C objects (the dense buffer,
the tile buffer, every channel's mapped region) are distinct maps.  A `uint16_t`
element `i` of a buffer occupies the bytes `2*i` and `2*i+1`.

`uint64_t` arithmetic that the source performs explicitly (`W * sizeof(uint16_t)`,
`N * C * H * W * sizeof(uint16_t)`) is reduced modulo `2^64`.  Array indexing is
address arithmetic and is kept in `Nat`.
-/

namespace Ane

/-! ## Memory -/

/-- Byte-addressed buffer: byte offset from the base pointer to the byte stored there. -/
abbrev Mem := Nat → Nat

/-- Size in bytes of a `uint16_t`: `sizeof(uint16_t)`. -/
def sizeof_uint16_t : Nat := 2

/-- Reduction of an arithmetic result to `uint64_t`. -/
def u64 (x : Nat) : Nat := x % 2 ^ 64

/-- C `memcpy(dst + d, src + s, n)`: the `n` bytes at offset `s` of `src` are stored at
offset `d` of `dst`; the result is the new contents of `dst`. -/
def memcpy (dst : Mem) (d : Nat) (src : Mem) (s : Nat) (n : Nat) : Mem :=
  fun i => if d ≤ i ∧ i < d + n then src (s + (i - d)) else dst i

/-- C `memset(dst + d, v, n)`: the result is the new contents of `dst`. -/
def memset (dst : Mem) (d : Nat) (v : Nat) (n : Nat) : Mem :=
  fun i => if d ≤ i ∧ i < d + n then v else dst i

/-- The `uint16_t` element number `i` of a buffer (little endian). -/
def elem16 (m : Mem) (i : Nat) : Nat :=
  m (sizeof_uint16_t * i) + 256 * m (sizeof_uint16_t * i + 1)

/-! ## ane_tile.c -/

/-- Function `ane_tile`: the loop nest over `n`, `c`, `h` copying one row of `stride` bytes
from the dense buffer `data` into the tile buffer `tile`.  The row pointer `(*tile_a)[n][c][h]`
of `uint16_t (*)[N][C][new_H][new_W]` is the byte offset `2 * (((n*C + c)*new_H + h)*new_W)`,
the row pointer `(*data_a)[n][c][h]` of `uint16_t (*)[N][C][H][W]` is the byte offset
`2 * (((n*C + c)*H + h)*W)`.  The result is the tile buffer after the call.  (For `R = 0` the
C division traps; the statements below are about `R ≠ 0`.) -/
def ane_tile (data tile : Mem) (N C H W P R : Nat) : Mem :=
  let new_H := P / R
  let new_W := R / sizeof_uint16_t
  let stride := u64 (W * sizeof_uint16_t)
  (List.range N).foldl (fun tile n =>
    (List.range C).foldl (fun tile c =>
      (List.range H).foldl (fun tile h =>
        memcpy tile (sizeof_uint16_t * (((n * C + c) * new_H + h) * new_W))
          data (sizeof_uint16_t * (((n * C + c) * H + h) * W)) stride)
        tile)
      tile)
    tile

/-- The copy loop of `ane_untile` (lines 49-56), without the `memset` before it. -/
def ane_untile_copy (data tile : Mem) (N C H W P R : Nat) : Mem :=
  let new_H := P / R
  let new_W := R / sizeof_uint16_t
  let stride := u64 (W * sizeof_uint16_t)
  (List.range N).foldl (fun data n =>
    (List.range C).foldl (fun data c =>
      (List.range H).foldl (fun data h =>
        memcpy data (sizeof_uint16_t * (((n * C + c) * H + h) * W))
          tile (sizeof_uint16_t * (((n * C + c) * new_H + h) * new_W)) stride)
        data)
      data)
    data

/-- Function `ane_untile`: zero-fills `data_size` bytes of the dense buffer, then runs the
copy loop.  The result is the dense buffer after the call. -/
def ane_untile (data tile : Mem) (N C H W P R : Nat) : Mem :=
  let data_size := u64 (N * C * H * W * sizeof_uint16_t)
  let data := memset data 0 0 data_size
  ane_untile_copy data tile N C H W P R

/-- One `memcpy` call: destination byte offset, source byte offset, byte count. -/
structure Copy where
  dst : Nat
  src : Nat
  len : Nat
deriving DecidableEq, Repr

/-- A byte offset lies in the destination range of a `memcpy` call. -/
def Copy.covers (k : Copy) (b : Nat) : Prop := k.dst ≤ b ∧ b < k.dst + k.len

instance (k : Copy) (b : Nat) : Decidable (k.covers b) := by
  unfold Copy.covers; exact inferInstance

/-- Performs a sequence of `memcpy` calls from `src` into `dst`, in order. -/
def replay (src : Mem) (calls : List Copy) (dst : Mem) : Mem :=
  calls.foldl (fun m k => memcpy m k.dst src k.src k.len) dst

/-- The `memcpy` calls issued by the loop nest of `ane_tile`, in program order. -/
def ane_tile_calls (N C H W P R : Nat) : List Copy :=
  (List.range N).flatMap fun n =>
    (List.range C).flatMap fun c =>
      (List.range H).map fun h =>
        { dst := sizeof_uint16_t * (((n * C + c) * (P / R) + h) * (R / sizeof_uint16_t))
          src := sizeof_uint16_t * (((n * C + c) * H + h) * W)
          len := u64 (W * sizeof_uint16_t) }

/-- The `memcpy` calls issued by the copy loop of `ane_untile`, in program order. -/
def ane_untile_calls (N C H W P R : Nat) : List Copy :=
  (List.range N).flatMap fun n =>
    (List.range C).flatMap fun c =>
      (List.range H).map fun h =>
        { dst := sizeof_uint16_t * (((n * C + c) * H + h) * W)
          src := sizeof_uint16_t * (((n * C + c) * (P / R) + h) * (R / sizeof_uint16_t))
          len := u64 (W * sizeof_uint16_t) }

/-! ## Context data model (`ane_priv.h`, `ane_dev.h`; declarations absent from the sources)

The structure declarations and the accessor macros `to_anec`, `tile_size`, `src_count`,
`dst_count`, `input_count`, `output_count` live in headers that are not part of the sources
at hand.  The fields below are exactly those the two C files read or write, and each macro is
a field holding the value the macro yields on the context.  Arrays are total maps from the
index; logical indices and slot numbers are natural numbers (a negative `int idx` is outside
the model). -/

/-- Error number `EINVAL` of `errno.h`. -/
def EINVAL : Int := 22

/-- Error number `ENODEV` of `errno.h`. -/
def ENODEV : Int := 19

/-- Model descriptor: `struct ane_model` together with its `struct anec` (`to_anec(nn)`). -/
structure ane_model where
  /-- Field `anec->tsk_size`. -/
  tsk_size : Nat
  /-- Field `anec->td_count`. -/
  td_count : Nat
  /-- Field `anec->td_size`. -/
  td_size : Nat
  /-- Entry `anec->tiles[bdx]`; non-zero when the slot is present in the model. -/
  tiles : Nat → Nat
  /-- Entry `model->nchw[bdx][k]`, `k < 6`: N, C, H, W, P, R of slot `bdx`. -/
  nchw : Nat → Nat → Nat
  /-- Value of `src_count(nn)`. -/
  src_count : Nat
  /-- Value of `dst_count(nn)`. -/
  dst_count : Nat
  /-- Value of `input_count(nn)`. -/
  input_count : Nat
  /-- Value of `output_count(nn)`. -/
  output_count : Nat
  /-- Value of `tile_size(nn, bdx)`, in bytes. -/
  tile_size : Nat → Nat

/-- One channel: the driver-assigned handle and the contents of the mapped region. -/
structure ane_chan where
  handle : Nat
  map : Mem

/-- Context `struct ane_nn`. -/
structure ane_nn where
  model : ane_model
  /-- Field `nn->ane.fd`. -/
  fd : Int
  /-- Array `nn->chans[]`, indexed by physical tile slot. -/
  chans : Nat → ane_chan
  fifo_chan : ane_chan
  /-- Table `nn->src_bdx[]`: logical input index to physical tile slot. -/
  src_bdx : Nat → Nat
  /-- Table `nn->dst_bdx[]`: logical output index to physical tile slot. -/
  dst_bdx : Nat → Nat

/-- One `ane_err("attempted to index %d but max is %d; bailing.\n", idx, max)` diagnostic. -/
structure Diag where
  idx : Nat
  max : Nat
deriving DecidableEq, Repr

/-- Stores new contents in the mapped region of channel `bdx`. -/
def ane_nn.set_map (nn : ane_nn) (bdx : Nat) (m : Mem) : ane_nn :=
  { nn with chans := fun b => if b = bdx then { nn.chans b with map := m } else nn.chans b }

/-! ## ane.c: send, read and the accessors

`strict` tells whether the library is compiled with `LIBANE_STRICT_INDEX`, that is whether
`SRC_INDEX_CHECK` / `DST_INDEX_CHECK` expand to the check or to nothing.  Every function returns
its result together with the diagnostics it emitted. -/

/-- Function `__ane_send`: the context after the call and the diagnostics emitted. -/
def __ane_send (strict : Bool) (nn : ane_nn) (from_ : Mem) (idx : Nat) : ane_nn × List Diag :=
  if strict = true ∧ idx ≥ nn.model.src_count then
    (nn, [{ idx := idx, max := nn.model.src_count }])
  else
    (nn.set_map (nn.src_bdx idx)
      (memcpy (nn.chans (nn.src_bdx idx)).map 0 from_ 0 (nn.model.tile_size (nn.src_bdx idx))), [])

/-- Function `__ane_read`: the caller's buffer after the call and the diagnostics emitted. -/
def __ane_read (strict : Bool) (nn : ane_nn) (to_ : Mem) (idx : Nat) : Mem × List Diag :=
  if strict = true ∧ idx ≥ nn.model.dst_count then
    (to_, [{ idx := idx, max := nn.model.dst_count }])
  else
    (memcpy to_ 0 (nn.chans (nn.dst_bdx idx)).map 0 (nn.model.tile_size (nn.dst_bdx idx)), [])

/-- Function `__ane_src_chan`: `none` is `NULL`, `some bdx` is the pointer `nn->chans[bdx].map`. -/
def __ane_src_chan (strict : Bool) (nn : ane_nn) (idx : Nat) : Option Nat × List Diag :=
  if strict = true ∧ idx ≥ nn.model.src_count then
    (none, [{ idx := idx, max := nn.model.src_count }])
  else
    (some (nn.src_bdx idx), [])

/-- Function `__ane_dst_chan`: `none` is `NULL`, `some bdx` is the pointer `nn->chans[bdx].map`. -/
def __ane_dst_chan (strict : Bool) (nn : ane_nn) (idx : Nat) : Option Nat × List Diag :=
  if strict = true ∧ idx ≥ nn.model.dst_count then
    (none, [{ idx := idx, max := nn.model.dst_count }])
  else
    (some (nn.dst_bdx idx), [])

/-- Function `__ane_src_size`. -/
def __ane_src_size (strict : Bool) (nn : ane_nn) (idx : Nat) : Nat × List Diag :=
  if strict = true ∧ idx ≥ nn.model.src_count then
    (0, [{ idx := idx, max := nn.model.src_count }])
  else
    (nn.model.tile_size (nn.src_bdx idx), [])

/-- Function `__ane_dst_size`. -/
def __ane_dst_size (strict : Bool) (nn : ane_nn) (idx : Nat) : Nat × List Diag :=
  if strict = true ∧ idx ≥ nn.model.dst_count then
    (0, [{ idx := idx, max := nn.model.dst_count }])
  else
    (nn.model.tile_size (nn.dst_bdx idx), [])

/-! ## ane.c: ane_exec -/

/-- Submission descriptor `struct drm_ane_submit`: the fields `ane_exec` assigns. -/
structure drm_ane_submit where
  tsk_size : Nat
  td_count : Nat
  td_size : Nat
  /-- Array `handles[ANE_TILE_COUNT]`. -/
  handles : List Nat
  fifo_handle : Nat
deriving DecidableEq, Repr

/-- Body of the loop of `ane_exec` at slot `bdx`:
`if (anec->tiles[bdx]) args.handles[bdx] = nn->chans[bdx].handle;`. -/
def ane_exec_body (nn : ane_nn) (args : drm_ane_submit) (bdx : Nat) : drm_ane_submit :=
  if nn.model.tiles bdx ≠ 0 then
    { args with handles := args.handles.set bdx (nn.chans bdx).handle }
  else args

/-- The descriptor `args` that `ane_exec` has assembled when it reaches the `ioctl`.
`ANE_TILE_COUNT` is a constant of an absent header and is taken as a parameter. -/
def ane_exec_args (ANE_TILE_COUNT : Nat) (nn : ane_nn) : drm_ane_submit :=
  let args : drm_ane_submit :=
    { tsk_size := 0, td_count := 0, td_size := 0,
      handles := List.replicate ANE_TILE_COUNT 0, fifo_handle := 0 }
  let args := { args with tsk_size := nn.model.tsk_size }
  let args := { args with td_count := nn.model.td_count }
  let args := { args with td_size := nn.model.td_size }
  let args := (List.range ANE_TILE_COUNT).foldl (ane_exec_body nn) args
  { args with fifo_handle := nn.fifo_chan.handle }

/-- Function `ane_exec`.  The device call `ioctl(fd, DRM_IOCTL_ANE_SUBMIT, &args)` is the
parameter `ioctl`, a function of the device handle and the descriptor. -/
def ane_exec (ANE_TILE_COUNT : Nat) (ioctl : Int → drm_ane_submit → Int) (nn : ane_nn) : Int :=
  ioctl nn.fd (ane_exec_args ANE_TILE_COUNT nn)

/-! ## ane_tile.c: ane_tiled_send -/

/-- Every `memcpy` of `ane_tile` that copies at least one byte ends inside a destination array
of `bytes` bytes. -/
def ane_tile_in_bounds (N C H W P R bytes : Nat) : Prop :=
  ∀ k ∈ ane_tile_calls N C H W P R, k.len = 0 ∨ k.dst + k.len ≤ bytes

instance (N C H W P R bytes : Nat) : Decidable (ane_tile_in_bounds N C H W P R bytes) := by
  unfold ane_tile_in_bounds; exact inferInstance

/-- Function `ane_tiled_send`: status, context after the call, diagnostics emitted.

The scratch buffer is the stack array `uint16_t tile[tile_size(nn, bdx) / sizeof(uint16_t)]`
of `tile_len` elements; `stack` is its content before it is zeroed.  The result is `none` when
the call has no defined result, in the order the code gets there:
`memset(tile, 0, tile_size)` runs past the array (odd `tile_size`); `ane_tile` divides by
`R = 0`; a `memcpy` of `ane_tile` ends past the array.  The `memcpy` of `__ane_send` reads
`tile_size` bytes of the array, which the `memset` check covers. -/
def ane_tiled_send (strict : Bool) (nn : ane_nn) (from_ : Mem) (stack : Mem) (idx : Nat) :
    Option (Int × ane_nn × List Diag) :=
  if idx ≥ nn.model.input_count then
    some (-EINVAL, nn, [])
  else
    let model := nn.model
    let bdx := nn.src_bdx idx
    let tile_len := model.tile_size bdx / sizeof_uint16_t
    if model.tile_size bdx > tile_len * sizeof_uint16_t then none
    else if model.nchw bdx 5 = 0 then none
    else if ¬ ane_tile_in_bounds (model.nchw bdx 0) (model.nchw bdx 1) (model.nchw bdx 2)
        (model.nchw bdx 3) (model.nchw bdx 4) (model.nchw bdx 5)
        (tile_len * sizeof_uint16_t) then none
    else
      let tile := memset stack 0 0 (model.tile_size bdx)
      let tile := ane_tile from_ tile (model.nchw bdx 0) (model.nchw bdx 1) (model.nchw bdx 2)
        (model.nchw bdx 3) (model.nchw bdx 4) (model.nchw bdx 5)
      let sent := __ane_send strict nn tile idx
      some (0, sent.1, sent.2)

/-! ## ane.c: ane_init -/

/-- Operations on process resources and log lines, in the order performed. -/
inductive Event where
  | zmalloc
  | dev_open
  | dev_close
  | free
  | log_err
  | log_info
deriving DecidableEq, Repr

/-- Process resources that `ane_init` acquires and releases. -/
structure Sys where
  /-- Number of live `struct ane_nn` objects on the heap. -/
  ctx_objs : Nat
  /-- Number of open device handles. -/
  open_fds : Nat
  /-- Number of live channels (allocated and mapped regions). -/
  mapped : Nat
  /-- Operations performed so far. -/
  trace : List Event

/-- Call `ane_zmalloc(sizeof(struct ane_nn))`; `ok` tells whether the allocator succeeds.
Returns whether the pointer is non-null. -/
def ane_zmalloc (ok : Bool) (s : Sys) : Bool × Sys :=
  if ok then (true, { s with ctx_objs := s.ctx_objs + 1, trace := s.trace ++ [Event.zmalloc] })
  else (false, s)

/-- Function `ane_open`; `fd` is what `open(ANE_SYSFS_PATH, ...)` returns. -/
def ane_open (fd : Int) (s : Sys) : Int × Sys :=
  if fd < 0 then
    (-ENODEV, { s with trace := s.trace ++ [Event.log_err] })
  else
    (0, { s with open_fds := s.open_fds + 1, trace := s.trace ++ [Event.dev_open] })

/-- Function `ane_close`. -/
def ane_close (s : Sys) : Sys :=
  { s with open_fds := s.open_fds - 1, trace := s.trace ++ [Event.dev_close] }

/-- Call `free(nn)`. -/
def free (s : Sys) : Sys :=
  { s with ctx_objs := s.ctx_objs - 1, trace := s.trace ++ [Event.free] }

/-- Function `ane_init`.  `alloc_ok` and `fd` are the outcomes of the allocator and of `open`;
`ane_chan_init` (of `ane_chan.h`, absent) is a parameter returning its status and the
resources after it.  The result is `some fd` for the context returned (holding the device
handle `fd`) or `none` for `NULL`. -/
def ane_init (alloc_ok : Bool) (fd : Int) (ane_chan_init : Sys → Int × Sys) (s : Sys) :
    Option Int × Sys :=
  let a := ane_zmalloc alloc_ok s
  if a.1 = false then
    (none, a.2)
  else
    let o := ane_open fd a.2
    if o.1 ≠ 0 then
      (none, free o.2)
    else
      let ch := ane_chan_init o.2
      if ch.1 ≠ 0 then
        (none, free (ane_close { ch.2 with trace := ch.2.trace ++ [Event.log_err] }))
      else
        (some fd, { ch.2 with trace := ch.2.trace ++ [Event.log_info] })

/-! ## Concrete inputs -/

/-- Dense source bytes `1, 2, 3, ...` (reduced to a byte). -/
def ramp : Mem := fun i => (i + 1) % 256

/-- Buffer holding the byte `0xAA` everywhere. -/
def filled : Mem := fun _ => 170

/-- Model with one input in slot 0 whose dimensions are `dims = [N, C, H, W, P, R]` and whose
declared size is `size` bytes. -/
def one_input_model (dims : List Nat) (size : Nat) : ane_model :=
  { tsk_size := 64, td_count := 1, td_size := 32,
    tiles := fun bdx => if bdx = 0 then 1 else 0,
    nchw := fun bdx k => if bdx = 0 then dims.getD k 0 else 0,
    src_count := 1, dst_count := 0, input_count := 1, output_count := 0,
    tile_size := fun bdx => if bdx = 0 then size else 0 }

/-- Context over `one_input_model`: device handle 3, every mapped region filled with `0xAA`,
channel `bdx` with handle `10 + bdx`, control channel with handle 9. -/
def one_input_nn (dims : List Nat) (size : Nat) : ane_nn :=
  { model := one_input_model dims size, fd := 3,
    chans := fun bdx => { handle := 10 + bdx, map := filled },
    fifo_chan := { handle := 9, map := filled },
    src_bdx := fun _ => 0, dst_bdx := fun _ => 0 }

/-- Slot with `N=1, C=1, H=2, W=1, P=2, R=2`: `new_H = 1 < H`, declared size 4 bytes. -/
def unfit_nn : ane_nn := one_input_nn [1, 1, 2, 1, 2, 2] 4

/-- Slot of the scenario `N=1, C=3, H=224, W=224, P=512, R=256`: `new_H = 2`, `new_W = 128`.
The declared size `0x10000` is large enough to hold every row the loop nest writes. -/
def scenario_nn : ane_nn := one_input_nn [1, 3, 224, 224, 512, 256] 65536

/-- Slot with `N=1, C=1, H=1, W=1, P=4, R=4`: `new_H = 1`, `new_W = 2`, declared size 4 bytes. -/
def fit_nn : ane_nn := one_input_nn [1, 1, 1, 1, 4, 4] 4

/-- Slot with `N=1, C=2, H=2, W=3, P=32, R=8`: `new_H = 4`, `new_W = 4`, declared size
`1*2*4*4*2 = 64` bytes. -/
def tensor_nn : ane_nn := one_input_nn [1, 2, 2, 3, 32, 8] 64

/-- Context of `tensor_nn` whose model has `input_count = 2` and `src_count = 1`. -/
def gap_nn : ane_nn :=
  { tensor_nn with model := { tensor_nn.model with input_count := 2 } }

/-- Slot with `N=1, C=1, H=1, W=1, P=4, R=4` (4 bytes of tile) and the odd declared size 5. -/
def odd_nn : ane_nn := one_input_nn [1, 1, 1, 1, 4, 4] 5

/-- Slot of the scenario with a declared size of `3 * 512 = 1536` bytes. -/
def scenario_small_nn : ane_nn := one_input_nn [1, 3, 224, 224, 512, 256] 1536

/-- Resources before any context exists. -/
def sys0 : Sys := { ctx_objs := 0, open_fds := 0, mapped := 0, trace := [] }

/-- A channel initialisation that fails with status 5 and holds nothing afterwards. -/
def failing_chan_init (s : Sys) : Int × Sys := (5, s)

/-! ## Lemmas on memory and loops -/

/-- A fold over the concatenation of per-item lists is the nested fold. -/
theorem foldl_flatMap_eq {α β σ : Type} (f : σ → β → σ) (g : α → List β) (l : List α) (s : σ) :
    (l.flatMap g).foldl f s = l.foldl (fun s a => (g a).foldl f s) s := by
  induction l generalizing s with
  | nil => rfl
  | cons a l ih => simp [List.flatMap_cons, List.foldl_append, ih]

/-- The loop nest of `ane_tile` performs exactly the calls of `ane_tile_calls`. -/
theorem ane_tile_eq_replay (data tile : Mem) (N C H W P R : Nat) :
    ane_tile data tile N C H W P R = replay data (ane_tile_calls N C H W P R) tile := by
  simp only [ane_tile, replay, ane_tile_calls, foldl_flatMap_eq, List.foldl_map]

/-- The copy loop of `ane_untile` performs exactly the calls of `ane_untile_calls`. -/
theorem ane_untile_copy_eq_replay (data tile : Mem) (N C H W P R : Nat) :
    ane_untile_copy data tile N C H W P R
      = replay tile (ane_untile_calls N C H W P R) data := by
  simp only [ane_untile_copy, replay, ane_untile_calls, foldl_flatMap_eq, List.foldl_map]

theorem u64_le (x : Nat) : u64 x ≤ x := Nat.mod_le _ _

theorem u64_of_lt {x : Nat} (h : x < 2 ^ 64) : u64 x = x := Nat.mod_eq_of_lt h

/-- A byte no call covers keeps its value. -/
theorem replay_of_not_covered (src : Mem) (calls : List Copy) (dst : Mem) (b : Nat)
    (h : ∀ k ∈ calls, ¬ k.covers b) : replay src calls dst b = dst b := by
  induction calls generalizing dst with
  | nil => rfl
  | cons k ks ih =>
    have hk : ¬ k.covers b := h k (List.mem_cons_self _ _)
    have hks : ∀ k ∈ ks, ¬ k.covers b := fun k hk => h k (List.mem_cons_of_mem _ hk)
    show replay src ks (memcpy dst k.dst src k.src k.len) b = dst b
    rw [ih _ hks]
    unfold Copy.covers at hk
    simp [memcpy, hk]

/-- A byte covered by some call, all of whose covering calls deliver `v`, ends up as `v`. -/
theorem replay_of_covered (src : Mem) (calls : List Copy) (dst : Mem) (b v : Nat)
    (hex : ∃ k ∈ calls, k.covers b)
    (hv : ∀ k ∈ calls, k.covers b → src (k.src + (b - k.dst)) = v) :
    replay src calls dst b = v := by
  induction calls generalizing dst with
  | nil => obtain ⟨k, hk, _⟩ := hex; cases hk
  | cons k ks ih =>
    show replay src ks (memcpy dst k.dst src k.src k.len) b = v
    by_cases hlater : ∃ k ∈ ks, k.covers b
    · exact ih _ hlater (fun k hk => hv k (List.mem_cons_of_mem _ hk))
    · have hnone : ∀ k ∈ ks, ¬ k.covers b := fun k hk hc => hlater ⟨k, hk, hc⟩
      rw [replay_of_not_covered _ _ _ _ hnone]
      obtain ⟨k0, hk0, hc0⟩ := hex
      have hkc : k.covers b := by
        rcases List.mem_cons.1 hk0 with rfl | hmem
        · exact hc0
        · exact absurd hc0 (hnone _ hmem)
      have := hv k (List.mem_cons_self _ _) hkc
      unfold Copy.covers at hkc
      simp [memcpy, hkc, this]

theorem mem_ane_tile_calls {N C H W P R : Nat} {k : Copy} :
    k ∈ ane_tile_calls N C H W P R ↔ ∃ n, n < N ∧ ∃ c, c < C ∧ ∃ h, h < H ∧
      k = { dst := sizeof_uint16_t * (((n * C + c) * (P / R) + h) * (R / sizeof_uint16_t))
            src := sizeof_uint16_t * (((n * C + c) * H + h) * W)
            len := u64 (W * sizeof_uint16_t) } := by
  simp only [ane_tile_calls, List.mem_flatMap, List.mem_map, List.mem_range]
  constructor
  · rintro ⟨n, hn, c, hc, h, hh, rfl⟩; exact ⟨n, hn, c, hc, h, hh, rfl⟩
  · rintro ⟨n, hn, c, hc, h, hh, rfl⟩; exact ⟨n, hn, c, hc, h, hh, rfl⟩

theorem mem_ane_untile_calls {N C H W P R : Nat} {k : Copy} :
    k ∈ ane_untile_calls N C H W P R ↔ ∃ n, n < N ∧ ∃ c, c < C ∧ ∃ h, h < H ∧
      k = { dst := sizeof_uint16_t * (((n * C + c) * H + h) * W)
            src := sizeof_uint16_t * (((n * C + c) * (P / R) + h) * (R / sizeof_uint16_t))
            len := u64 (W * sizeof_uint16_t) } := by
  simp only [ane_untile_calls, List.mem_flatMap, List.mem_map, List.mem_range]
  constructor
  · rintro ⟨n, hn, c, hc, h, hh, rfl⟩; exact ⟨n, hn, c, hc, h, hh, rfl⟩
  · rintro ⟨n, hn, c, hc, h, hh, rfl⟩; exact ⟨n, hn, c, hc, h, hh, rfl⟩

/-- Two rows of pitch `K` that both contain the byte `b` are the same row. -/
theorem row_unique {r r' K L b : Nat} (hL : L ≤ K)
    (h1 : 2 * (r * K) ≤ b) (h2 : b < 2 * (r * K) + 2 * L)
    (h3 : 2 * (r' * K) ≤ b) (h4 : b < 2 * (r' * K) + 2 * L) : r = r' := by
  rcases Nat.lt_trichotomy r r' with h | h | h
  · exfalso
    have : (r + 1) * K ≤ r' * K := Nat.mul_le_mul_right K h
    have e : (r + 1) * K = r * K + K := by ring
    omega
  · exact h
  · exfalso
    have : (r' + 1) * K ≤ r * K := Nat.mul_le_mul_right K h
    have e : (r' + 1) * K = r' * K + K := by ring
    omega

/-- Quotient and remainder of a row number are unique. -/
theorem quot_rem_unique {q q' M h h' : Nat} (hh : h < M) (hh' : h' < M)
    (e : q * M + h = q' * M + h') : q = q' ∧ h = h' := by
  have hq : q = q' := by
    rcases Nat.lt_trichotomy q q' with hlt | heq | hlt
    · exfalso
      have : (q + 1) * M ≤ q' * M := Nat.mul_le_mul_right M hlt
      have e2 : (q + 1) * M = q * M + M := by ring
      omega
    · exact heq
    · exfalso
      have : (q' + 1) * M ≤ q * M := Nat.mul_le_mul_right M hlt
      have e2 : (q' + 1) * M = q' * M + M := by ring
      omega
  subst hq
  exact ⟨rfl, by omega⟩

/-- The final value of a byte depends on the destination only through that byte. -/
theorem replay_congr (src : Mem) (calls : List Copy) (dst dst' : Mem) (b : Nat)
    (h : dst b = dst' b) : replay src calls dst b = replay src calls dst' b := by
  induction calls generalizing dst dst' with
  | nil => exact h
  | cons k ks ih =>
    show replay src ks (memcpy dst k.dst src k.src k.len) b
      = replay src ks (memcpy dst' k.dst src k.src k.len) b
    apply ih
    simp only [memcpy, h]

/-- The final value of a byte some call covers does not depend on the destination. -/
theorem replay_indep (src : Mem) (calls : List Copy) (dst dst' : Mem) (b : Nat)
    (hex : ∃ k ∈ calls, k.covers b) :
    replay src calls dst b = replay src calls dst' b := by
  induction calls generalizing dst dst' with
  | nil => obtain ⟨k, hk, _⟩ := hex; cases hk
  | cons k ks ih =>
    show replay src ks (memcpy dst k.dst src k.src k.len) b
      = replay src ks (memcpy dst' k.dst src k.src k.len) b
    by_cases hlater : ∃ k ∈ ks, k.covers b
    · exact ih _ _ hlater
    · obtain ⟨k0, hk0, hc0⟩ := hex
      have hkc : k.covers b := by
        rcases List.mem_cons.1 hk0 with rfl | hmem
        · exact hc0
        · exact absurd ⟨k0, hmem, hc0⟩ hlater
      apply replay_congr
      unfold Copy.covers at hkc
      simp [memcpy, hkc]

/-- Row bytes of the tile buffer after `ane_tile`: byte `j` of row `(n, c, h)` of the tile is
byte `j` of row `(n, c, h)` of the dense buffer. -/
theorem ane_tile_row_byte (data tile : Mem) {N C H W P R n c h j : Nat}
    (hR : R < 2 ^ 64) (hH : H ≤ P / R) (hW : W ≤ R / 2)
    (hn : n < N) (hc : c < C) (hh : h < H) (hj : j < 2 * W) :
    ane_tile data tile N C H W P R (2 * (((n * C + c) * (P / R) + h) * (R / 2)) + j)
      = data (2 * (((n * C + c) * H + h) * W) + j) := by
  have hlen : u64 (W * 2) = W * 2 := u64_of_lt (by omega)
  rw [ane_tile_eq_replay]
  apply replay_of_covered
  · refine ⟨_, mem_ane_tile_calls.2 ⟨n, hn, c, hc, h, hh, rfl⟩, ?_⟩
    simp only [Copy.covers, sizeof_uint16_t, hlen]
    omega
  · intro k hk hcov
    obtain ⟨n', _, c', _, h', hh', rfl⟩ := mem_ane_tile_calls.1 hk
    simp only [Copy.covers, sizeof_uint16_t, hlen] at hcov ⊢
    have hrow : (n' * C + c') * (P / R) + h' = (n * C + c) * (P / R) + h :=
      row_unique hW hcov.1 (by omega) (by omega) (by omega)
    obtain ⟨hq, hh0⟩ := quot_rem_unique (by omega) (by omega) hrow
    rw [hq, hh0]
    congr 1
    omega

/-- A byte that lies in no row written by `ane_tile` keeps its value. -/
theorem ane_tile_frame_byte (data tile : Mem) {N C H W P R b : Nat}
    (hb : ∀ n, n < N → ∀ c, c < C → ∀ h, h < H →
      ¬ (2 * (((n * C + c) * (P / R) + h) * (R / 2)) ≤ b
          ∧ b < 2 * (((n * C + c) * (P / R) + h) * (R / 2)) + 2 * W)) :
    ane_tile data tile N C H W P R b = tile b := by
  rw [ane_tile_eq_replay]
  apply replay_of_not_covered
  intro k hk hcov
  obtain ⟨n, hn, c, hc, h, hh, rfl⟩ := mem_ane_tile_calls.1 hk
  simp only [Copy.covers, sizeof_uint16_t] at hcov
  have := u64_le (W * 2)
  exact hb n hn c hc h hh ⟨hcov.1, by omega⟩

/-- Row bytes of the dense buffer after the copy loop of `ane_untile`. -/
theorem ane_untile_copy_row_byte (data tile : Mem) {N C H W P R n c h j : Nat}
    (hW : W * 2 < 2 ^ 64)
    (hn : n < N) (hc : c < C) (hh : h < H) (hj : j < 2 * W) :
    ane_untile_copy data tile N C H W P R (2 * (((n * C + c) * H + h) * W) + j)
      = tile (2 * (((n * C + c) * (P / R) + h) * (R / 2)) + j) := by
  have hlen : u64 (W * 2) = W * 2 := u64_of_lt hW
  rw [ane_untile_copy_eq_replay]
  apply replay_of_covered
  · refine ⟨_, mem_ane_untile_calls.2 ⟨n, hn, c, hc, h, hh, rfl⟩, ?_⟩
    simp only [Copy.covers, sizeof_uint16_t, hlen]
    omega
  · intro k hk hcov
    obtain ⟨n', _, c', _, h', hh', rfl⟩ := mem_ane_untile_calls.1 hk
    simp only [Copy.covers, sizeof_uint16_t, hlen] at hcov ⊢
    have hrow : (n' * C + c') * H + h' = (n * C + c) * H + h :=
      row_unique (le_refl W) hcov.1 (by omega) (by omega) (by omega)
    obtain ⟨hq, hh0⟩ := quot_rem_unique (by omega) (by omega) hrow
    rw [hq, hh0]
    congr 1
    omega

/-- Every byte of a dense `[N][C][H][W]` buffer lies in the row of some `(n, c, h)`. -/
theorem dense_row_of_byte {N C H W b : Nat} (hb : b < N * C * H * W * 2) :
    ∃ n, n < N ∧ ∃ c, c < C ∧ ∃ h, h < H ∧
      2 * (((n * C + c) * H + h) * W) ≤ b ∧ b < 2 * (((n * C + c) * H + h) * W) + 2 * W := by
  have hWpos : 0 < W := by
    rcases Nat.eq_zero_or_pos W with h0 | h0
    · subst h0; simp at hb
    · exact h0
  have hHpos : 0 < H := by
    rcases Nat.eq_zero_or_pos H with h0 | h0
    · subst h0; simp at hb
    · exact h0
  have hCpos : 0 < C := by
    rcases Nat.eq_zero_or_pos C with h0 | h0
    · subst h0; simp at hb
    · exact h0
  have hr : b / (2 * W) < N * C * H := by
    rw [Nat.div_lt_iff_lt_mul (by omega)]
    calc b < N * C * H * W * 2 := hb
      _ = N * C * H * (2 * W) := by ring
  have hq : b / (2 * W) / H < N * C := by
    rw [Nat.div_lt_iff_lt_mul hHpos]; exact hr
  have hn : b / (2 * W) / H / C < N := by
    rw [Nat.div_lt_iff_lt_mul hCpos]; exact hq
  refine ⟨b / (2 * W) / H / C, hn, b / (2 * W) / H % C, Nat.mod_lt _ hCpos,
    b / (2 * W) % H, Nat.mod_lt _ hHpos, ?_⟩
  have e1 : b / (2 * W) / H / C * C + b / (2 * W) / H % C = b / (2 * W) / H := by
    rw [Nat.mul_comm]; exact Nat.div_add_mod _ _
  have e2 : b / (2 * W) / H * H + b / (2 * W) % H = b / (2 * W) := by
    rw [Nat.mul_comm]; exact Nat.div_add_mod _ _
  rw [e1, e2]
  have e3 := Nat.div_add_mod b (2 * W)
  have e4 := Nat.mod_lt b (show 0 < 2 * W by omega)
  have e5 : 2 * (b / (2 * W) * W) = 2 * W * (b / (2 * W)) := by ring
  omega

/-- Every byte below `data_size` is written by the copy loop of `ane_untile`. -/
theorem ane_untile_covered {N C H W b : Nat} (P R : Nat)
    (hfit : N * C * H * W * 2 < 2 ^ 64) (hb : b < N * C * H * W * 2) :
    ∃ k ∈ ane_untile_calls N C H W P R, k.covers b := by
  obtain ⟨n, hn, c, hc, h, hh, h1, h2⟩ := dense_row_of_byte hb
  refine ⟨_, mem_ane_untile_calls.2 ⟨n, hn, c, hc, h, hh, rfl⟩, ?_⟩
  have hpos : 0 < N * C * H := by
    rcases Nat.eq_zero_or_pos (N * C * H) with h0 | h0
    · rw [h0] at hb; simp at hb
    · exact h0
  have hW : W * 2 < 2 ^ 64 := by
    have : 1 * (W * 2) ≤ N * C * H * (W * 2) := Nat.mul_le_mul_right _ hpos
    have e : N * C * H * (W * 2) = N * C * H * W * 2 := by ring
    omega
  simp only [Copy.covers, sizeof_uint16_t, u64_of_lt hW]
  omega

/-! ## Tiling transform: claims -/

/-- C3: layout produced by `ane_tile`.  For `R ≥ 2`, `H ≤ new_H = P / R` and
`W ≤ new_W = R / 2`, and every `n < N`, `c < C`, `h < H`, `w < W`, the element of the tile
buffer at linear index `((n*C + c)*new_H + h)*new_W + w` after `ane_tile` equals the element
of the dense buffer at linear index `((n*C + c)*H + h)*W + w`. -/
theorem ane_tile_layout (data tile : Mem) (N C H W P R : Nat)
    (_hR2 : 2 ≤ R) (hR : R < 2 ^ 64) (hH : H ≤ P / R) (hW : W ≤ R / 2)
    (n c h w : Nat) (hn : n < N) (hc : c < C) (hh : h < H) (hw : w < W) :
    elem16 (ane_tile data tile N C H W P R) (((n * C + c) * (P / R) + h) * (R / 2) + w)
      = elem16 data (((n * C + c) * H + h) * W + w) := by
  have e0 := ane_tile_row_byte data tile hR hH hW hn hc hh (show 2 * w < 2 * W by omega)
  have e1 := ane_tile_row_byte data tile hR hH hW hn hc hh (show 2 * w + 1 < 2 * W by omega)
  simp only [elem16, sizeof_uint16_t, Nat.mul_add, ← Nat.add_assoc] at e0 e1 ⊢
  rw [e0, e1]

/-- C2: `ane_tile` writes only inside the `H × W` sub-regions.  The call is the sequence of
`memcpy` calls `ane_tile_calls`; for `R ≥ 2`, `H ≤ new_H` and `W ≤ new_W` every byte any of
them writes belongs to an element whose index is below `N*C*new_H*new_W`, and every element
at a position `(n, c, h', w')` of the padded tile with `h' ≥ H` or `w' ≥ W` holds after the
call the value it held before. -/
theorem ane_tile_writes_inside (data tile : Mem) (N C H W P R : Nat)
    (_hR2 : 2 ≤ R) (hR : R < 2 ^ 64) (hH : H ≤ P / R) (hW : W ≤ R / 2) :
    ane_tile data tile N C H W P R = replay data (ane_tile_calls N C H W P R) tile
    ∧ (∀ k ∈ ane_tile_calls N C H W P R, ∀ b, k.covers b →
        b / 2 < N * C * (P / R) * (R / 2))
    ∧ (∀ n c h' w', h' < P / R → w' < R / 2 → (H ≤ h' ∨ W ≤ w') →
        elem16 (ane_tile data tile N C H W P R) (((n * C + c) * (P / R) + h') * (R / 2) + w')
          = elem16 tile (((n * C + c) * (P / R) + h') * (R / 2) + w')) := by
  refine ⟨ane_tile_eq_replay _ _ _ _ _ _ _ _, ?_, ?_⟩
  · intro k hk b hcov
    obtain ⟨n, hn, c, hc, h, hh, rfl⟩ := mem_ane_tile_calls.1 hk
    have hlen : u64 (W * 2) = W * 2 := u64_of_lt (by omega)
    simp only [Copy.covers, sizeof_uint16_t, hlen] at hcov
    have h1 : (n * C + c + 1) * (P / R) ≤ N * C * (P / R) := by
      apply Nat.mul_le_mul_right
      have : (n + 1) * C ≤ N * C := Nat.mul_le_mul_right C hn
      have e : (n + 1) * C = n * C + C := by ring
      omega
    have h2 : ((n * C + c) * (P / R) + h + 1) * (R / 2) ≤ N * C * (P / R) * (R / 2) := by
      apply Nat.mul_le_mul_right
      have e : (n * C + c + 1) * (P / R) = (n * C + c) * (P / R) + P / R := by ring
      omega
    have e : ((n * C + c) * (P / R) + h + 1) * (R / 2)
        = ((n * C + c) * (P / R) + h) * (R / 2) + R / 2 := by ring
    omega
  · intro n c h' w' hh' hw' hout
    have key : ∀ j, j < 2 →
        ane_tile data tile N C H W P R (2 * (((n * C + c) * (P / R) + h') * (R / 2)) + (2 * w' + j))
          = tile (2 * (((n * C + c) * (P / R) + h') * (R / 2)) + (2 * w' + j)) := by
      intro j hj
      apply ane_tile_frame_byte
      rintro n0 _ c0 _ h0 hh0 ⟨hlo, hhi⟩
      have hrow : (n0 * C + c0) * (P / R) + h0 = (n * C + c) * (P / R) + h' :=
        row_unique (le_refl (R / 2)) hlo (by omega) (by omega) (by omega)
      obtain ⟨_, hh0'⟩ := quot_rem_unique (by omega) hh' hrow
      rw [hrow] at hlo hhi
      omega
    have e0 := key 0 (by omega)
    have e1 := key 1 (by omega)
    simp only [Nat.add_zero] at e0
    simp only [elem16, sizeof_uint16_t, Nat.mul_add, ← Nat.add_assoc] at e0 e1 ⊢
    rw [e0, e1]

/-- C1: round trip of `ane_tile` and `ane_untile`.  For `R ≥ 2`, `H ≤ new_H = P / R` and
`W ≤ new_W = R / 2`, every dense buffer `X`, every initial tile buffer `T` and every initial
destination buffer `D`, untiling into `D` the tile buffer obtained by tiling `X` into `T`
yields a dense buffer whose element at every `(n, c, h, w)` equals that of `X`. -/
theorem ane_untile_ane_tile_roundtrip (X T D : Mem) (N C H W P R : Nat)
    (_hR2 : 2 ≤ R) (hR : R < 2 ^ 64) (hH : H ≤ P / R) (hW : W ≤ R / 2)
    (n c h w : Nat) (hn : n < N) (hc : c < C) (hh : h < H) (hw : w < W) :
    elem16 (ane_untile D (ane_tile X T N C H W P R) N C H W P R) (((n * C + c) * H + h) * W + w)
      = elem16 X (((n * C + c) * H + h) * W + w) := by
  have hW2 : W * 2 < 2 ^ 64 := by omega
  have key : ∀ j, j < 2 * W →
      ane_untile D (ane_tile X T N C H W P R) N C H W P R (2 * (((n * C + c) * H + h) * W) + j)
        = X (2 * (((n * C + c) * H + h) * W) + j) := by
    intro j hj
    unfold ane_untile
    rw [ane_untile_copy_row_byte _ _ hW2 hn hc hh hj,
      ane_tile_row_byte X T hR hH hW hn hc hh hj]
  have e0 := key (2 * w) (by omega)
  have e1 := key (2 * w + 1) (by omega)
  simp only [elem16, sizeof_uint16_t, Nat.mul_add, ← Nat.add_assoc] at e0 e1 ⊢
  rw [e0, e1]

/-- C10: the zero-fill in `ane_untile` never shows in the result.  For dimensions of a dense
buffer whose byte size `N*C*H*W*2` fits `uint64_t`, and `R ≥ 2`: `ane_untile` produces the
same dense buffer as its copy loop run without the initial `memset`; for every two initial
destination buffers the results agree on every byte of the dense buffer; and every element
`(n, c, h, w)` of the result is the element `((n*C + c)*new_H + h)*new_W + w` of the tile
buffer. -/
theorem ane_untile_memset_invisible (T : Mem) (N C H W P R : Nat)
    (_hR2 : 2 ≤ R) (hfit : N * C * H * W * 2 < 2 ^ 64) :
    (∀ D, ane_untile D T N C H W P R = ane_untile_copy D T N C H W P R)
    ∧ (∀ D1 D2 b, b < N * C * H * W * 2 →
        ane_untile D1 T N C H W P R b = ane_untile D2 T N C H W P R b)
    ∧ (∀ D n c h w, n < N → c < C → h < H → w < W →
        elem16 (ane_untile D T N C H W P R) (((n * C + c) * H + h) * W + w)
          = elem16 T (((n * C + c) * (P / R) + h) * (R / 2) + w)) := by
  refine ⟨?_, ?_, ?_⟩
  · intro D
    funext b
    unfold ane_untile
    simp only [ane_untile_copy_eq_replay]
    by_cases hb : b < N * C * H * W * 2
    · exact replay_indep _ _ _ _ _ (ane_untile_covered P R hfit hb)
    · apply replay_congr
      have := u64_le (N * C * H * W * sizeof_uint16_t)
      simp only [sizeof_uint16_t] at this
      simp only [memset, sizeof_uint16_t]
      rw [if_neg]
      omega
  · intro D1 D2 b hb
    unfold ane_untile
    simp only [ane_untile_copy_eq_replay]
    exact replay_indep _ _ _ _ _ (ane_untile_covered P R hfit hb)
  · intro D n c h w hn hc hh hw
    have hpos : 0 < N * C * H := by
      have h1 : 0 < N * C := Nat.mul_pos (by omega) (by omega)
      exact Nat.mul_pos h1 (by omega)
    have hW2 : W * 2 < 2 ^ 64 := by
      have : 1 * (W * 2) ≤ N * C * H * (W * 2) := Nat.mul_le_mul_right _ hpos
      have e : N * C * H * (W * 2) = N * C * H * W * 2 := by ring
      omega
    have key : ∀ j, j < 2 * W →
        ane_untile D T N C H W P R (2 * (((n * C + c) * H + h) * W) + j)
          = T (2 * (((n * C + c) * (P / R) + h) * (R / 2)) + j) := by
      intro j hj
      unfold ane_untile
      rw [ane_untile_copy_row_byte _ _ hW2 hn hc hh hj]
    have e0 := key (2 * w) (by omega)
    have e1 := key (2 * w + 1) (by omega)
    simp only [elem16, sizeof_uint16_t, Nat.mul_add, ← Nat.add_assoc] at e0 e1 ⊢
    rw [e0, e1]

/-! ## Context operations: claims -/

/-- C6: `__ane_send` copies exactly one channel's declared size and nothing else.  For every
logical index below the declared input count, after the call the first
`tile_size(src_bdx[idx])` bytes of channel `src_bdx[idx]` equal those of the source buffer;
the later bytes of that channel, its handle, every other channel, the control channel and
both index tables are unchanged, and no diagnostic is emitted. -/
theorem ane_send_copies_one_channel (strict : Bool) (nn : ane_nn) (from_ : Mem) (idx : Nat)
    (hidx : idx < nn.model.src_count) :
    (∀ b, b < nn.model.tile_size (nn.src_bdx idx) →
        ((__ane_send strict nn from_ idx).1.chans (nn.src_bdx idx)).map b = from_ b)
    ∧ (∀ b, nn.model.tile_size (nn.src_bdx idx) ≤ b →
        ((__ane_send strict nn from_ idx).1.chans (nn.src_bdx idx)).map b
          = (nn.chans (nn.src_bdx idx)).map b)
    ∧ ((__ane_send strict nn from_ idx).1.chans (nn.src_bdx idx)).handle
        = (nn.chans (nn.src_bdx idx)).handle
    ∧ (∀ bdx, bdx ≠ nn.src_bdx idx → (__ane_send strict nn from_ idx).1.chans bdx = nn.chans bdx)
    ∧ (__ane_send strict nn from_ idx).1.fifo_chan = nn.fifo_chan
    ∧ (__ane_send strict nn from_ idx).1.src_bdx = nn.src_bdx
    ∧ (__ane_send strict nn from_ idx).1.dst_bdx = nn.dst_bdx
    ∧ (__ane_send strict nn from_ idx).1.model = nn.model
    ∧ (__ane_send strict nn from_ idx).2 = [] := by
  have hno : ¬ (strict = true ∧ idx ≥ nn.model.src_count) := by
    rintro ⟨_, h⟩; omega
  have hrun : __ane_send strict nn from_ idx
      = (nn.set_map (nn.src_bdx idx)
          (memcpy (nn.chans (nn.src_bdx idx)).map 0 from_ 0
            (nn.model.tile_size (nn.src_bdx idx))), []) := by
    simp only [__ane_send, if_neg hno]
  rw [hrun]
  refine ⟨?_, ?_, ?_, ?_, rfl, rfl, rfl, rfl, rfl⟩
  · intro b hb
    simp [ane_nn.set_map, memcpy, hb]
  · intro b hb
    have : ¬ b < nn.model.tile_size (nn.src_bdx idx) := by omega
    simp [ane_nn.set_map, memcpy, this]
  · simp [ane_nn.set_map]
  · intro bdx hbdx
    simp [ane_nn.set_map, hbdx]

/-- State of the descriptor after `k` iterations of the loop of `ane_exec`. -/
theorem exec_loop_spec (nn : ane_nn) (TC k : Nat) (a0 : drm_ane_submit)
    (h0 : a0.handles = List.replicate TC 0) :
    ((List.range k).foldl (ane_exec_body nn) a0).tsk_size = a0.tsk_size
    ∧ ((List.range k).foldl (ane_exec_body nn) a0).td_count = a0.td_count
    ∧ ((List.range k).foldl (ane_exec_body nn) a0).td_size = a0.td_size
    ∧ ((List.range k).foldl (ane_exec_body nn) a0).fifo_handle = a0.fifo_handle
    ∧ ((List.range k).foldl (ane_exec_body nn) a0).handles.length = TC
    ∧ ∀ bdx, bdx < TC → ((List.range k).foldl (ane_exec_body nn) a0).handles[bdx]?
        = some (if bdx < k ∧ nn.model.tiles bdx ≠ 0 then (nn.chans bdx).handle else 0) := by
  induction k with
  | zero =>
    refine ⟨rfl, rfl, rfl, rfl, by simp [h0], ?_⟩
    intro bdx hb
    simp [h0, hb]
  | succ k ih =>
    rw [List.range_succ, List.foldl_append]
    obtain ⟨h1, h2, h3, h4, h5, h6⟩ := ih
    generalize (List.range k).foldl (ane_exec_body nn) a0 = a at h1 h2 h3 h4 h5 h6 ⊢
    show (ane_exec_body nn a k).tsk_size = _ ∧ (ane_exec_body nn a k).td_count = _
      ∧ (ane_exec_body nn a k).td_size = _ ∧ (ane_exec_body nn a k).fifo_handle = _
      ∧ (ane_exec_body nn a k).handles.length = _
      ∧ ∀ bdx, bdx < TC → (ane_exec_body nn a k).handles[bdx]? = _
    by_cases ht : nn.model.tiles k ≠ 0
    · have hb : ane_exec_body nn a k
          = { a with handles := a.handles.set k (nn.chans k).handle } := by
        simp only [ane_exec_body, if_pos ht]
      rw [hb]
      refine ⟨h1, h2, h3, h4, by simp [h5], ?_⟩
      intro bdx hbd
      by_cases hbk : bdx = k
      · subst hbk
        have hlen : bdx < a.handles.length := by omega
        simp [List.getElem?_set, hlen, ht]
      · have hne : k ≠ bdx := fun h => hbk h.symm
        show (a.handles.set k (nn.chans k).handle)[bdx]? = _
        rw [List.getElem?_set_ne hne, h6 bdx hbd]
        have : (bdx < k + 1) ↔ (bdx < k) := by omega
        simp only [this]
    · have hb : ane_exec_body nn a k = a := by
        simp only [ane_exec_body, if_neg ht]
      rw [hb]
      refine ⟨h1, h2, h3, h4, h5, ?_⟩
      intro bdx hbd
      rw [h6 bdx hbd]
      by_cases hbk : bdx = k
      · subst hbk
        have ht0 : nn.model.tiles bdx = 0 := by simpa using ht
        simp [ht0]
      · have : (bdx < k + 1) ↔ (bdx < k) := by omega
        simp only [this]

/-- C7: `ane_exec` submits the specified descriptor and passes the status through.  For every
device-call function the result of `ane_exec` is exactly what the device call returns on the
context's device handle and one descriptor; that descriptor carries the model's task size,
descriptor-table count and descriptor-table size, has `ANE_TILE_COUNT` handles with
`handles[bdx] = chans[bdx].handle` for every slot present in the model and `0` for every
absent slot, and carries the control channel's handle as `fifo_handle`. -/
theorem ane_exec_submits_descriptor (ANE_TILE_COUNT : Nat) (nn : ane_nn) :
    ∃ args : drm_ane_submit,
      (∀ ioctl : Int → drm_ane_submit → Int,
        ane_exec ANE_TILE_COUNT ioctl nn = ioctl nn.fd args)
      ∧ args.tsk_size = nn.model.tsk_size
      ∧ args.td_count = nn.model.td_count
      ∧ args.td_size = nn.model.td_size
      ∧ args.handles.length = ANE_TILE_COUNT
      ∧ (∀ bdx, bdx < ANE_TILE_COUNT → args.handles[bdx]?
          = some (if nn.model.tiles bdx ≠ 0 then (nn.chans bdx).handle else 0))
      ∧ args.fifo_handle = nn.fifo_chan.handle := by
  refine ⟨ane_exec_args ANE_TILE_COUNT nn, fun _ => rfl, ?_⟩
  obtain ⟨h1, h2, h3, _, h5, h6⟩ := exec_loop_spec nn ANE_TILE_COUNT ANE_TILE_COUNT
    { tsk_size := nn.model.tsk_size, td_count := nn.model.td_count,
      td_size := nn.model.td_size, handles := List.replicate ANE_TILE_COUNT 0,
      fifo_handle := 0 } rfl
  refine ⟨h1, h2, h3, h5, ?_, rfl⟩
  intro bdx hb
  have h := h6 bdx hb
  simp only [hb, true_and] at h
  exact h

/-- C8: strict-index rejection.  With strict index mode enabled, for every logical index at or
above the declared input count `__ane_send` returns the context unchanged (every channel's
mapped region included) and emits exactly one diagnostic, `__ane_src_chan` returns null and
`__ane_src_size` returns 0; for every logical index at or above the declared output count
`__ane_read` returns the caller's buffer unchanged and emits exactly one diagnostic,
`__ane_dst_chan` returns null and `__ane_dst_size` returns 0. -/
theorem strict_index_rejection (nn : ane_nn) (buf : Mem) (i o : Nat)
    (hi : nn.model.src_count ≤ i) (ho : nn.model.dst_count ≤ o) :
    __ane_send true nn buf i = (nn, [{ idx := i, max := nn.model.src_count }])
    ∧ __ane_src_chan true nn i = (none, [{ idx := i, max := nn.model.src_count }])
    ∧ __ane_src_size true nn i = (0, [{ idx := i, max := nn.model.src_count }])
    ∧ __ane_read true nn buf o = (buf, [{ idx := o, max := nn.model.dst_count }])
    ∧ __ane_dst_chan true nn o = (none, [{ idx := o, max := nn.model.dst_count }])
    ∧ __ane_dst_size true nn o = (0, [{ idx := o, max := nn.model.dst_count }]) := by
  have hs : (true = true ∧ i ≥ nn.model.src_count) := ⟨rfl, hi⟩
  have hd : (true = true ∧ o ≥ nn.model.dst_count) := ⟨rfl, ho⟩
  unfold __ane_send __ane_src_chan __ane_src_size __ane_read __ane_dst_chan __ane_dst_size
  rw [if_pos hs, if_pos hs, if_pos hs, if_pos hd, if_pos hd, if_pos hd]
  exact ⟨rfl, rfl, rfl, rfl, rfl, rfl⟩

/-- C9: `ane_init` is all-or-nothing.  Assume a failing channel initialisation leaves the
numbers of context objects, open device handles and live channels as it found them.  Then
`ane_init` returns a non-null context iff allocation, device open and channel initialisation
all succeed; whenever it returns null those three numbers are what they were before the call;
when device open fails the context object is the only resource released, and when channel
initialisation fails the device is closed and after that the context object is released. -/
theorem ane_init_all_or_nothing (alloc_ok : Bool) (fd : Int)
    (ane_chan_init : Sys → Int × Sys) (s : Sys)
    (hchan : ∀ s', (ane_chan_init s').1 ≠ 0 →
      (ane_chan_init s').2.ctx_objs = s'.ctx_objs
      ∧ (ane_chan_init s').2.open_fds = s'.open_fds
      ∧ (ane_chan_init s').2.mapped = s'.mapped) :
    ((ane_init alloc_ok fd ane_chan_init s).1 ≠ none ↔
        alloc_ok = true ∧ 0 ≤ fd
        ∧ (ane_chan_init (ane_open fd (ane_zmalloc alloc_ok s).2).2).1 = 0)
    ∧ ((ane_init alloc_ok fd ane_chan_init s).1 = none →
        (ane_init alloc_ok fd ane_chan_init s).2.ctx_objs = s.ctx_objs
        ∧ (ane_init alloc_ok fd ane_chan_init s).2.open_fds = s.open_fds
        ∧ (ane_init alloc_ok fd ane_chan_init s).2.mapped = s.mapped)
    ∧ (alloc_ok = false → (ane_init alloc_ok fd ane_chan_init s).2 = s)
    ∧ (alloc_ok = true → fd < 0 →
        (ane_init alloc_ok fd ane_chan_init s).2.trace
          = s.trace ++ [Event.zmalloc, Event.log_err, Event.free])
    ∧ (alloc_ok = true → 0 ≤ fd →
        (ane_chan_init (ane_open fd (ane_zmalloc alloc_ok s).2).2).1 ≠ 0 →
        (ane_init alloc_ok fd ane_chan_init s).2.trace
          = (ane_chan_init (ane_open fd (ane_zmalloc alloc_ok s).2).2).2.trace
              ++ [Event.log_err, Event.dev_close, Event.free]) := by
  cases alloc_ok with
  | false =>
    have hrun : ane_init false fd ane_chan_init s = (none, s) := rfl
    rw [hrun]
    simp
  | true =>
    have hz : ane_zmalloc true s
        = (true, { s with ctx_objs := s.ctx_objs + 1, trace := s.trace ++ [Event.zmalloc] }) :=
      rfl
    by_cases hfd : fd < 0
    · have hnot : ¬ (0 ≤ fd) := by omega
      have hrun : ane_init true fd ane_chan_init s
          = (none, { s with trace := s.trace ++ [Event.zmalloc, Event.log_err, Event.free] }) := by
        simp [ane_init, ane_zmalloc, ane_open, hfd, free, ENODEV]
      rw [hrun]
      simp [hnot, hfd]
    · have hge : 0 ≤ fd := by omega
      have hz1 : (ane_zmalloc true s).1 = true := rfl
      have ho1 : (ane_open fd (ane_zmalloc true s).2).1 = 0 := by simp [ane_open, hfd]
      have ho2 : (ane_open fd (ane_zmalloc true s).2).2.ctx_objs = s.ctx_objs + 1 := by
        simp [ane_open, ane_zmalloc, hfd]
      have ho3 : (ane_open fd (ane_zmalloc true s).2).2.open_fds = s.open_fds + 1 := by
        simp [ane_open, ane_zmalloc, hfd]
      have ho4 : (ane_open fd (ane_zmalloc true s).2).2.mapped = s.mapped := by
        simp [ane_open, ane_zmalloc, hfd]
      have hrun : ane_init true fd ane_chan_init s
          = if (ane_chan_init (ane_open fd (ane_zmalloc true s).2).2).1 = 0 then
              (some fd,
                { (ane_chan_init (ane_open fd (ane_zmalloc true s).2).2).2 with
                  trace := (ane_chan_init (ane_open fd (ane_zmalloc true s).2).2).2.trace
                    ++ [Event.log_info] })
            else
              (none, free (ane_close
                { (ane_chan_init (ane_open fd (ane_zmalloc true s).2).2).2 with
                  trace := (ane_chan_init (ane_open fd (ane_zmalloc true s).2).2).2.trace
                    ++ [Event.log_err] })) := by
        simp [ane_init, hz1, ho1]
      rw [hrun]
      have hc := hchan (ane_open fd (ane_zmalloc true s).2).2
      generalize (ane_open fd (ane_zmalloc true s).2).2 = s2 at ho2 ho3 ho4 hc ⊢
      generalize ane_chan_init s2 = r at hc ⊢
      by_cases hch : r.1 = 0
      · simp [hch, hge]
      · obtain ⟨c1, c2, c3⟩ := hc hch
        simp [hch, hge, hfd, free, ane_close, c1, c2, c3, ho2, ho3, ho4]

/-- Positions of the padded tile have element indices below `N*C*new_H*new_W`. -/
theorem tile_index_lt {N C M K n c h w : Nat} (hn : n < N) (hc : c < C) (hh : h < M)
    (hw : w < K) : ((n * C + c) * M + h) * K + w < N * C * M * K := by
  have h1 : (n * C + c + 1) * M ≤ N * C * M := by
    apply Nat.mul_le_mul_right
    have : (n + 1) * C ≤ N * C := Nat.mul_le_mul_right C hn
    have e : (n + 1) * C = n * C + C := by ring
    omega
  have h2 : ((n * C + c) * M + h + 1) * K ≤ N * C * M * K := by
    apply Nat.mul_le_mul_right
    have e : (n * C + c + 1) * M = (n * C + c) * M + M := by ring
    omega
  have e : ((n * C + c) * M + h + 1) * K = ((n * C + c) * M + h) * K + K := by ring
  omega

/-- An accepted `ane_tiled_send` whose array accesses are all in bounds, in closed form. -/
theorem ane_tiled_send_run (strict : Bool) (nn : ane_nn) (X stack : Mem) (idx : Nat)
    (hidx : idx < nn.model.input_count)
    (hstrict : strict = true → idx < nn.model.src_count)
    (hset : ¬ nn.model.tile_size (nn.src_bdx idx)
        > nn.model.tile_size (nn.src_bdx idx) / sizeof_uint16_t * sizeof_uint16_t)
    (hR : nn.model.nchw (nn.src_bdx idx) 5 ≠ 0)
    (hin : ane_tile_in_bounds
        (nn.model.nchw (nn.src_bdx idx) 0) (nn.model.nchw (nn.src_bdx idx) 1)
        (nn.model.nchw (nn.src_bdx idx) 2) (nn.model.nchw (nn.src_bdx idx) 3)
        (nn.model.nchw (nn.src_bdx idx) 4) (nn.model.nchw (nn.src_bdx idx) 5)
        (nn.model.tile_size (nn.src_bdx idx) / sizeof_uint16_t * sizeof_uint16_t)) :
    ane_tiled_send strict nn X stack idx
      = some (0, nn.set_map (nn.src_bdx idx)
            (memcpy (nn.chans (nn.src_bdx idx)).map 0
              (ane_tile X (memset stack 0 0 (nn.model.tile_size (nn.src_bdx idx)))
                (nn.model.nchw (nn.src_bdx idx) 0) (nn.model.nchw (nn.src_bdx idx) 1)
                (nn.model.nchw (nn.src_bdx idx) 2) (nn.model.nchw (nn.src_bdx idx) 3)
                (nn.model.nchw (nn.src_bdx idx) 4) (nn.model.nchw (nn.src_bdx idx) 5))
              0 (nn.model.tile_size (nn.src_bdx idx))), []) := by
  have h1 : ¬ (idx ≥ nn.model.input_count) := by omega
  have h2 : ¬ (strict = true ∧ idx ≥ nn.model.src_count) := by
    rintro ⟨hs, hge⟩
    have := hstrict hs
    omega
  have h3 : ¬ ¬ ane_tile_in_bounds
        (nn.model.nchw (nn.src_bdx idx) 0) (nn.model.nchw (nn.src_bdx idx) 1)
        (nn.model.nchw (nn.src_bdx idx) 2) (nn.model.nchw (nn.src_bdx idx) 3)
        (nn.model.nchw (nn.src_bdx idx) 4) (nn.model.nchw (nn.src_bdx idx) 5)
        (nn.model.tile_size (nn.src_bdx idx) / sizeof_uint16_t * sizeof_uint16_t) :=
    fun h => h hin
  simp only [ane_tiled_send, if_neg h1, if_neg hset, if_neg hR, if_neg h3,
    __ane_send, if_neg h2]

/-- For fitting dimensions every `memcpy` of `ane_tile` ends inside the padded tile. -/
theorem ane_tile_in_bounds_of_fit {N C H W P R bytes : Nat}
    (hR : R < 2 ^ 64) (hH : H ≤ P / R) (hW : W ≤ R / 2)
    (hsize : N * C * (P / R) * (R / 2) * 2 ≤ bytes) :
    ane_tile_in_bounds N C H W P R bytes := by
  intro k hk
  obtain ⟨n, hn, c, hc, h, hh, rfl⟩ := mem_ane_tile_calls.1 hk
  have hlen : u64 (W * 2) = W * 2 := u64_of_lt (by omega)
  simp only [sizeof_uint16_t, hlen]
  rcases Nat.eq_zero_or_pos W with h0 | h0
  · left; omega
  · right
    have hlt := tile_index_lt hn hc (show h < P / R by omega) (show W - 1 < R / 2 by omega)
    omega

/-- Reading back the region stored by `set_map`. -/
theorem set_map_map (nn : ane_nn) (bdx : Nat) (m : Mem) :
    ((nn.set_map bdx m).chans bdx).map = m := by
  simp [ane_nn.set_map]

/-- C5 (as stated) fails.  On `gap_nn` the input index 1 is below `input_count = 2` and the
slot `src_bdx[1] = 0` declares fitting dimensions (`R = 8 ≥ 2`, `H = 2 ≤ 4`, `W = 3 ≤ 4`,
`1*2*4*4*2 = 64 ≤ tile_size`), yet in strict index mode `ane_tiled_send` returns 0 while
`__ane_send` has bailed out at `idx ≥ src_count = 1`: one diagnostic is emitted and element 0
of channel 0 still holds its old value `0xAAAA` instead of `X[0][0][0][0] = 0x0201`.  On
`odd_nn` (declared size 5 for a 4-byte tile) the `memset` runs one byte past the array
`tile[5 / 2]`, and the call has no defined result. -/
theorem ane_tiled_send_strict_gap :
    (1 < gap_nn.model.input_count
      ∧ (List.range 6).map (gap_nn.model.nchw (gap_nn.src_bdx 1)) = [1, 2, 2, 3, 32, 8]
      ∧ 2 ≤ 8 ∧ 2 ≤ 32 / 8 ∧ 3 ≤ 8 / 2
      ∧ 1 * 2 * (32 / 8) * (8 / 2) * 2 ≤ gap_nn.model.tile_size (gap_nn.src_bdx 1))
    ∧ (ane_tiled_send true gap_nn ramp filled 1).map
          (fun r => (r.1, r.2.2, elem16 (r.2.1.chans (gap_nn.src_bdx 1)).map 0))
        = some (0, [{ idx := 1, max := 1 }], 43690)
    ∧ elem16 ramp 0 = 513
    ∧ (0 < odd_nn.model.input_count
      ∧ (List.range 6).map (odd_nn.model.nchw (odd_nn.src_bdx 0)) = [1, 1, 1, 1, 4, 4]
      ∧ 1 * 1 * (4 / 4) * (4 / 2) * 2 ≤ odd_nn.model.tile_size (odd_nn.src_bdx 0))
    ∧ (ane_tiled_send false odd_nn ramp filled 0).isSome = false := by
  refine ⟨by decide, by decide, by decide, by decide, by decide⟩

/-- C5 (amended): `ane_tiled_send` delivers the zero-padded tile.  For an input index below
the input count that `__ane_send` accepts (no strict index mode, or `idx < src_count`), whose
slot `bdx = src_bdx[idx]` declares `R ≥ 2`, `H ≤ P / R`, `W ≤ R / 2`, and an even
`tile_size(bdx)` with `N*C*(P/R)*(R/2)*2 ≤ tile_size(bdx)`, the call returns 0 without a
diagnostic, and afterwards the first `tile_size(bdx)` bytes of channel `bdx`, read as 16-bit
elements, hold `X[n][c][h][w]` at index `((n*C + c)*new_H + h)*new_W + w` for every `n < N`,
`c < C`, `h < H`, `w < W`, and hold 0 at every other index. -/
theorem ane_tiled_send_delivers (strict : Bool) (nn : ane_nn) (X stack : Mem) (idx : Nat)
    (N C H W P R : Nat)
    (hdims : (List.range 6).map (nn.model.nchw (nn.src_bdx idx)) = [N, C, H, W, P, R])
    (hidx : idx < nn.model.input_count)
    (hstrict : strict = true → idx < nn.model.src_count)
    (hR2 : 2 ≤ R) (hR : R < 2 ^ 64) (hH : H ≤ P / R) (hW : W ≤ R / 2)
    (heven : nn.model.tile_size (nn.src_bdx idx) % 2 = 0)
    (hsize : N * C * (P / R) * (R / 2) * 2 ≤ nn.model.tile_size (nn.src_bdx idx)) :
    ∃ nn', ane_tiled_send strict nn X stack idx = some (0, nn', [])
      ∧ (∀ n c h w, n < N → c < C → h < H → w < W →
          2 * (((n * C + c) * (P / R) + h) * (R / 2) + w) + 2
              ≤ nn.model.tile_size (nn.src_bdx idx)
          ∧ elem16 (nn'.chans (nn.src_bdx idx)).map
                (((n * C + c) * (P / R) + h) * (R / 2) + w)
              = elem16 X (((n * C + c) * H + h) * W + w))
      ∧ (∀ i, 2 * i + 2 ≤ nn.model.tile_size (nn.src_bdx idx) →
          (¬ ∃ n c h w, n < N ∧ c < C ∧ h < H ∧ w < W
              ∧ i = ((n * C + c) * (P / R) + h) * (R / 2) + w) →
          elem16 (nn'.chans (nn.src_bdx idx)).map i = 0) := by
  have hrange : List.range 6 = [0, 1, 2, 3, 4, 5] := by decide
  rw [hrange] at hdims
  simp only [List.map_cons, List.map_nil, List.cons.injEq, and_true] at hdims
  obtain ⟨hN, hC, hHe, hWe, hP, hRe⟩ := hdims
  have hbytes : nn.model.tile_size (nn.src_bdx idx) / sizeof_uint16_t * sizeof_uint16_t
      = nn.model.tile_size (nn.src_bdx idx) := by
    simp only [sizeof_uint16_t]; omega
  have hrun := ane_tiled_send_run strict nn X stack idx hidx hstrict
    (by rw [hbytes]; omega) (by rw [hRe]; omega)
    (by rw [hbytes, hN, hC, hHe, hWe, hP, hRe]; exact ane_tile_in_bounds_of_fit hR hH hW hsize)
  rw [hN, hC, hHe, hWe, hP, hRe] at hrun
  refine ⟨_, hrun, ?_⟩
  simp only [set_map_map]
  generalize nn.model.tile_size (nn.src_bdx idx) = ts at hsize ⊢
  generalize (nn.chans (nn.src_bdx idx)).map = m0
  have hmap : ∀ b, b < ts →
      memcpy m0 0 (ane_tile X (memset stack 0 0 ts) N C H W P R) 0 ts b
        = ane_tile X (memset stack 0 0 ts) N C H W P R b := by
    intro b hb
    simp [memcpy, hb]
  refine ⟨?_, ?_⟩
  · intro n c h w hn hc hh hw
    have hlt := tile_index_lt hn hc (show h < P / R by omega) (show w < R / 2 by omega)
    have hbound : 2 * (((n * C + c) * (P / R) + h) * (R / 2) + w) + 2 ≤ ts := by omega
    refine ⟨hbound, ?_⟩
    have e0 := ane_tile_row_byte X (memset stack 0 0 ts) hR hH hW hn hc hh
      (show 2 * w < 2 * W by omega)
    have e1 := ane_tile_row_byte X (memset stack 0 0 ts) hR hH hW hn hc hh
      (show 2 * w + 1 < 2 * W by omega)
    have m0' := hmap (2 * (((n * C + c) * (P / R) + h) * (R / 2) + w)) (by omega)
    have m1' := hmap (2 * (((n * C + c) * (P / R) + h) * (R / 2) + w) + 1) (by omega)
    simp only [elem16, sizeof_uint16_t]
    rw [m0', m1']
    simp only [Nat.mul_add, ← Nat.add_assoc] at e0 e1 ⊢
    rw [e0, e1]
  · intro i hi hnot
    have key : ∀ j, j < 2 → ane_tile X (memset stack 0 0 ts) N C H W P R (2 * i + j) = 0 := by
      intro j hj
      rw [ane_tile_frame_byte]
      · have : 0 ≤ 2 * i + j ∧ 2 * i + j < 0 + ts := ⟨by omega, by omega⟩
        simp only [memset, if_pos this]
      · rintro n hn c hc h hh ⟨hlo, hhi⟩
        apply hnot
        refine ⟨n, c, h, i - ((n * C + c) * (P / R) + h) * (R / 2), hn, hc, hh, ?_, ?_⟩
        · omega
        · omega
    have e0 := key 0 (by omega)
    have e1 := key 1 (by omega)
    have m0' := hmap (2 * i) (by omega)
    have m1' := hmap (2 * i + 1) (by omega)
    simp only [elem16, sizeof_uint16_t]
    rw [m0', m1']
    simp only [Nat.add_zero] at e0
    rw [e0, e1]

set_option maxRecDepth 100000 in
/-- C4 (as stated) fails: the slot of `unfit_nn` declares `H = 2 > P / R = 1`, yet
`ane_tiled_send` returns 0, in both index modes, and the mapped region of channel 0 is
overwritten with the tiled bytes (the two rows written lie inside the 4-byte array `tile`);
on the scenario slot `N=1, C=3, H=224, W=224, P=512, R=256` (`W > R / 2` and `H > P / R`)
with a declared size of `0x10000` bytes, which holds every row written, the status is 0 as
well. -/
theorem ane_tiled_send_accepts_unfit_dims :
    (unfit_nn.model.nchw (unfit_nn.src_bdx 0) 2
        > unfit_nn.model.nchw (unfit_nn.src_bdx 0) 4 / unfit_nn.model.nchw (unfit_nn.src_bdx 0) 5)
    ∧ (ane_tiled_send false unfit_nn ramp filled 0).map
          (fun r => (r.1, (List.range 4).map (r.2.1.chans 0).map))
        = some (0, [1, 2, 3, 4])
    ∧ (ane_tiled_send true unfit_nn ramp filled 0).map
          (fun r => (r.1, (List.range 4).map (r.2.1.chans 0).map))
        = some (0, [1, 2, 3, 4])
    ∧ (List.range 4).map (unfit_nn.chans 0).map = [170, 170, 170, 170]
    ∧ (scenario_nn.model.nchw (scenario_nn.src_bdx 0) 3
        > scenario_nn.model.nchw (scenario_nn.src_bdx 0) 5 / 2)
    ∧ (ane_tiled_send false scenario_nn ramp filled 0).map (fun r => r.1) = some 0 := by
  refine ⟨by decide, by decide, by decide, by decide, by decide, by decide⟩

/-- C4 (amended): `ane_tiled_send` rejects on the index alone.  For `idx ≥ input_count` it
returns the non-zero status `-EINVAL` with the context (every channel's mapped region
included) unchanged and without a diagnostic, the tiling transform not having run.  The
declared dimensions never cause a rejection: whenever the call returns, its status is
non-zero only if `idx ≥ input_count`.  (Nothing is said of a call whose rows overrun the
scratch array.) -/
theorem ane_tiled_send_rejects_index_only (strict : Bool) (nn : ane_nn) (from_ stack : Mem)
    (idx : Nat) :
    (nn.model.input_count ≤ idx →
        ane_tiled_send strict nn from_ stack idx = some (-EINVAL, nn, []) ∧ -EINVAL ≠ 0)
    ∧ (∀ r, ane_tiled_send strict nn from_ stack idx = some r →
        r.1 ≠ 0 → nn.model.input_count ≤ idx ∧ r = (-EINVAL, nn, [])) := by
  constructor
  · intro h
    have h' : idx ≥ nn.model.input_count := h
    have hne : (-EINVAL : Int) ≠ 0 := by decide
    refine ⟨?_, hne⟩
    simp only [ane_tiled_send, if_pos h']
  · intro r hr hne
    by_cases h : idx ≥ nn.model.input_count
    · simp only [ane_tiled_send, if_pos h] at hr
      exact ⟨h, (Option.some.inj hr).symm⟩
    · exfalso
      simp only [ane_tiled_send, if_neg h] at hr
      split_ifs at hr
      have hr' := Option.some.inj hr
      rw [← hr'] at hne
      exact hne rfl

set_option maxRecDepth 100000 in
/-- The scenario slot with a declared size of 1536 bytes: rows of `ane_tile` end past the
array `tile`, and the call has no defined result. -/
theorem ane_tiled_send_scenario_overrun :
    (ane_tiled_send false scenario_small_nn ramp filled 0).isSome = false := by
  decide

/-! ## Instances -/

/-- Instances of the index-only rejection on `unfit_nn`: index 1 is rejected with the context
unchanged. -/
theorem ane_tiled_send_rejects_index_only_witness :
    unfit_nn.model.input_count ≤ 1
    ∧ ane_tiled_send true unfit_nn ramp filled 1 = some (-EINVAL, unfit_nn, []) :=
  ⟨by decide,
   ((ane_tiled_send_rejects_index_only true unfit_nn ramp filled 1).1 (by decide)).1⟩

/-- Instance of the layout theorem on a `1×2×2×3` tensor with `P = 32`, `R = 8`. -/
theorem ane_tile_layout_witness :
    (2 ≤ 8 ∧ 8 < 2 ^ 64 ∧ 2 ≤ 32 / 8 ∧ 3 ≤ 8 / 2)
    ∧ elem16 (ane_tile ramp filled 1 2 2 3 32 8) (((0 * 2 + 1) * (32 / 8) + 1) * (8 / 2) + 2)
        = elem16 ramp (((0 * 2 + 1) * 2 + 1) * 3 + 2) :=
  ⟨by decide,
   ane_tile_layout ramp filled 1 2 2 3 32 8 (by decide) (by decide) (by decide) (by decide)
     0 1 1 2 (by decide) (by decide) (by decide) (by decide)⟩

/-- Instance of the write-range theorem on a `1×2×2×3` tensor with `P = 32`, `R = 8`. -/
theorem ane_tile_writes_inside_witness :
    (2 ≤ 8 ∧ 8 < 2 ^ 64 ∧ 2 ≤ 32 / 8 ∧ 3 ≤ 8 / 2)
    ∧ (∀ k ∈ ane_tile_calls 1 2 2 3 32 8, ∀ b, k.covers b → b / 2 < 1 * 2 * (32 / 8) * (8 / 2))
    ∧ elem16 (ane_tile ramp filled 1 2 2 3 32 8) (((0 * 2 + 1) * (32 / 8) + 1) * (8 / 2) + 3)
        = elem16 filled (((0 * 2 + 1) * (32 / 8) + 1) * (8 / 2) + 3) :=
  ⟨by decide,
   (ane_tile_writes_inside ramp filled 1 2 2 3 32 8
     (by decide) (by decide) (by decide) (by decide)).2.1,
   (ane_tile_writes_inside ramp filled 1 2 2 3 32 8
     (by decide) (by decide) (by decide) (by decide)).2.2 0 1 1 3
     (by decide) (by decide) (by decide)⟩

/-- Instance of the round trip on a `1×2×2×3` tensor with `P = 32`, `R = 8`. -/
theorem ane_untile_ane_tile_roundtrip_witness :
    (2 ≤ 8 ∧ 8 < 2 ^ 64 ∧ 2 ≤ 32 / 8 ∧ 3 ≤ 8 / 2)
    ∧ elem16 (ane_untile filled (ane_tile ramp filled 1 2 2 3 32 8) 1 2 2 3 32 8)
          (((0 * 2 + 1) * 2 + 1) * 3 + 2)
        = elem16 ramp (((0 * 2 + 1) * 2 + 1) * 3 + 2) :=
  ⟨by decide,
   ane_untile_ane_tile_roundtrip ramp filled filled 1 2 2 3 32 8
     (by decide) (by decide) (by decide) (by decide)
     0 1 1 2 (by decide) (by decide) (by decide) (by decide)⟩

/-- Instance of the zero-fill theorem on a `1×2×2×3` tensor with `P = 32`, `R = 8`. -/
theorem ane_untile_memset_invisible_witness :
    (2 ≤ 8 ∧ 1 * 2 * 2 * 3 * 2 < 2 ^ 64)
    ∧ ane_untile filled ramp 1 2 2 3 32 8 = ane_untile_copy filled ramp 1 2 2 3 32 8 :=
  ⟨by decide,
   (ane_untile_memset_invisible ramp 1 2 2 3 32 8 (by decide) (by decide)).1 filled⟩

/-- Instance of the delivery theorem on `tensor_nn` (a `1×2×2×3` tensor, `P = 32`, `R = 8`,
64 bytes of tile) in strict mode: the call returns 0, element `(0, 1, 1, 2)` of `X` arrives
at tile index 22, and the padding element at index 3 is 0. -/
theorem ane_tiled_send_delivers_witness :
    (0 < tensor_nn.model.input_count ∧ 0 < tensor_nn.model.src_count
      ∧ 2 ≤ 8 ∧ 8 < 2 ^ 64 ∧ 2 ≤ 32 / 8 ∧ 3 ≤ 8 / 2
      ∧ tensor_nn.model.tile_size (tensor_nn.src_bdx 0) % 2 = 0
      ∧ 1 * 2 * (32 / 8) * (8 / 2) * 2 ≤ tensor_nn.model.tile_size (tensor_nn.src_bdx 0))
    ∧ ∃ nn', ane_tiled_send true tensor_nn ramp filled 0 = some (0, nn', [])
        ∧ elem16 (nn'.chans (tensor_nn.src_bdx 0)).map (((0 * 2 + 1) * (32 / 8) + 1) * (8 / 2) + 2)
            = elem16 ramp (((0 * 2 + 1) * 2 + 1) * 3 + 2)
        ∧ elem16 (nn'.chans (tensor_nn.src_bdx 0)).map 3 = 0 :=
  ⟨by decide,
   let ⟨nn', hrun, hdata, hpad⟩ :=
     ane_tiled_send_delivers true tensor_nn ramp filled 0 1 2 2 3 32 8 (by decide) (by decide)
       (fun _ => by decide) (by decide) (by decide) (by decide) (by decide) (by decide)
       (by decide)
   ⟨nn', hrun, (hdata 0 1 1 2 (by decide) (by decide) (by decide) (by decide)).2,
     hpad 3 (by decide) (by
       rintro ⟨n, c, h, w, hn, hc, hh, hw, e⟩
       have hn0 : n = 0 := by omega
       subst hn0
       have hc' : c = 0 ∨ c = 1 := by omega
       have hh' : h = 0 ∨ h = 1 := by omega
       rcases hc' with rfl | rfl <;> rcases hh' with rfl | rfl <;> omega)⟩⟩

/-- Instance of the send theorem on `fit_nn`, input 0. -/
theorem ane_send_copies_one_channel_witness :
    (0 < fit_nn.model.src_count)
    ∧ (∀ b, b < fit_nn.model.tile_size (fit_nn.src_bdx 0) →
        ((__ane_send true fit_nn ramp 0).1.chans (fit_nn.src_bdx 0)).map b = ramp b) :=
  ⟨by decide, (ane_send_copies_one_channel true fit_nn ramp 0 (by decide)).1⟩

/-- Instance of strict rejection on `fit_nn`: input index 1 and output index 0 are out of range. -/
theorem strict_index_rejection_witness :
    (fit_nn.model.src_count ≤ 1 ∧ fit_nn.model.dst_count ≤ 0)
    ∧ (__ane_send true fit_nn ramp 1).2 = [{ idx := 1, max := 1 }]
    ∧ (__ane_read true fit_nn ramp 0).2 = [{ idx := 0, max := 0 }] :=
  ⟨by decide,
   congrArg Prod.snd (strict_index_rejection fit_nn ramp 1 0 (by decide) (by decide)).1,
   congrArg Prod.snd (strict_index_rejection fit_nn ramp 1 0 (by decide) (by decide)).2.2.2.1⟩

/-- Instance of the set-up theorem: allocation and open succeed, channel initialisation fails. -/
theorem ane_init_all_or_nothing_witness :
    (ane_init true 3 failing_chan_init sys0).1 = none
    ∧ (ane_init true 3 failing_chan_init sys0).2.open_fds = sys0.open_fds
    ∧ (ane_init true 3 failing_chan_init sys0).2.ctx_objs = sys0.ctx_objs :=
  have h := ane_init_all_or_nothing true 3 failing_chan_init sys0
    (fun _ _ => ⟨rfl, rfl, rfl⟩)
  ⟨by decide, (h.2.1 (by decide)).2.1, (h.2.1 (by decide)).1⟩

end Ane
